import Mathlib

/-
Verification development for the LigDockAnalyzer interaction-detection engine.

The embedding below translates the TypeScript core (`services/interactionService.ts`
and `services/geometryUtils.ts`, plus the threshold / chemical-property constants)
into Lean. Conventions of the embedding, used consistently and noted again at the
definitions they affect:

* JavaScript numbers are modelled by exact rationals `ℚ` (the idealized real
  semantics of the float code; every claim under test is stated in real terms).
* The source compares Euclidean distances `Math.sqrt(d2) < t` against constant
  nonnegative thresholds, and stores such distances.  Since `Real.sqrt` is
  strictly monotone on nonnegative inputs, `sqrt d2 < t ↔ d2 < t^2` for `t ≥ 0`;
  the embedding therefore works with squared distances (`distanceSq`, mirroring
  the source's own `distanceSq`) and squared thresholds throughout, and the
  `Interaction.distanceSq` field stores the square of the distance the source
  stores.  Equalities and comparisons of distances transfer verbatim.
* `Math.acos` produces the angle only through the comparisons `angle < 30`,
  `angle > 150`, `angle > 60`, `angle < 120` (degrees).  Since `acos` is
  strictly decreasing and the compared cosine is the clamped
  `|dot| / (mag1*mag2) ∈ [0,1]`, each comparison is translated into an exact
  rational comparison of `dot^2` against `mag1^2 * mag2^2` scaled by the squared
  cosine of the threshold (`cos 30° = √3/2`, `cos 60° = 1/2`); see
  `isParallelNormals` / `isTShapedNormals`.
* JS `Map` / plain-object string keys such as `` `${i}-${j}` `` and
  `` `${chain}:${resNo}` `` are modelled by the corresponding pairs; the decimal
  string of a natural number contains no `-`, and a residue number string no
  `:`, so the string keys and the pairs are in bijection.
* Ring perception's recursive DFS is bounded by the path-length check
  `path.length > 6`; the Lean version carries a fuel argument that is
  initialised to 7, which is exactly the depth at which the source's own bound
  fires, so fuel exhaustion and the source's length check coincide.
-/

namespace LigDock

/- Batteries marks the arithmetic of `Rat` irreducible.  Evaluating the engine
on the concrete witness structures below goes through the kernel (`decide`),
which needs these definitions to unfold. -/
attribute [local semireducible] Rat.ofScientific Rat.mul Rat.inv Rat.add Rat.sub

/-- A 3D point / vector with rational coordinates (models `Point3D` / `Vector3`). -/
structure P3 where
  x : ℚ
  y : ℚ
  z : ℚ
deriving DecidableEq, Repr

/-- The origin, also the zero vector. -/
def P3.zero : P3 := ⟨0, 0, 0⟩

/-- Vector subtraction (source `sub`). -/
def sub (a b : P3) : P3 := ⟨a.x - b.x, a.y - b.y, a.z - b.z⟩

/-- Vector addition (source `add`). -/
def add (a b : P3) : P3 := ⟨a.x + b.x, a.y + b.y, a.z + b.z⟩

/-- Dot product (source `dot`). -/
def dot (a b : P3) : ℚ := a.x * b.x + a.y * b.y + a.z * b.z

/-- Cross product (source `cross`). -/
def cross (a b : P3) : P3 :=
  ⟨a.y * b.z - a.z * b.y, a.z * b.x - a.x * b.z, a.x * b.y - a.y * b.x⟩

/-- Squared magnitude; the source's `mag v` is `Real.sqrt (magSq v)`. -/
def magSq (v : P3) : ℚ := v.x * v.x + v.y * v.y + v.z * v.z

/-- Squared Euclidean distance (source `distanceSq`; the source's `distance a b`
is `Real.sqrt (distanceSq a b)`). -/
def distanceSq (a b : P3) : ℚ :=
  (a.x - b.x) * (a.x - b.x) + (a.y - b.y) * (a.y - b.y) + (a.z - b.z) * (a.z - b.z)

/-- Arithmetic mean of a list of points; the origin for an empty list
(source `getCenter`). -/
def getCenter (pts : List P3) : P3 :=
  if pts.length = 0 then ⟨0, 0, 0⟩
  else
    let s := pts.foldl add ⟨0, 0, 0⟩
    ⟨s.x / pts.length, s.y / pts.length, s.z / pts.length⟩

/-- The plane-normal direction used by the source's `getPlaneNormal`: cross
product of the two edge vectors from the first point to the middle and last
point, with the fixed sentinel `(0,0,1)` for fewer than three points.  The
source normalizes the cross product; normalization is dropped here because the
result only ever enters the angle tests, which are invariant under positive
scaling, and `normalize c = 0 ↔ c = 0`, so the degenerate (zero-vector) case is
also preserved exactly. -/
def getPlaneNormalDir (pts : List P3) : P3 :=
  if pts.length < 3 then ⟨0, 0, 1⟩
  else
    let p1 := pts.getD 0 P3.zero
    let p2 := pts.getD (pts.length / 2) P3.zero
    let p3 := pts.getD (pts.length - 1) P3.zero
    cross (sub p2 p1) (sub p3 p1)

/-- An atom record as extracted from the structure (source `AtomData`). -/
structure AtomData where
  index : ℕ
  name : String
  element : String
  x : ℚ
  y : ℚ
  z : ℚ
  resName : String
  resNo : ℤ
  chain : String
  isHet : Bool
deriving DecidableEq, Repr

/-- The position of an atom as a point (the source passes atom records
directly to the geometry functions, which read `x`, `y`, `z`). -/
def AtomData.pos (a : AtomData) : P3 := ⟨a.x, a.y, a.z⟩

/-- Placeholder atom used only as the default of `List.getD` / `List.headD`
lookups that the source performs on lists it has already checked nonempty /
in range. -/
def dAtom : AtomData :=
  ⟨0, "", "", 0, 0, 0, "", 0, "", false⟩

/-- A residue option / ligand selector (source `ResidueOption`). -/
structure ResidueOption where
  resName : String
  resNo : ℤ
  chain : String
  atomCount : ℕ
deriving DecidableEq, Repr

/-- A parsed structure: the atom traversal (`eachAtom` order) and the residue
traversal (`eachResidue` order). -/
structure Structure where
  atoms : List AtomData
  residues : List ResidueOption
deriving DecidableEq, Repr

/-- Interaction types (source `InteractionType`). -/
inductive InteractionType where
  | hydrogenBond
  | hydrophobic
  | saltBridge
  | piStacking
  | halogenBond
  | metalCoordination
  | unknown
deriving DecidableEq, Repr

/-- An interaction record.  `distanceSq` stores the square of the source's
`distance` field (see the header comment).  The source's optional `angle`
field (set only on the plane-stacking records, never read by any claim under
verification) is not carried. -/
structure Interaction where
  id : String
  type : InteractionType
  distanceSq : ℚ
  ligandAtom : AtomData
  proteinAtom : AtomData
deriving DecidableEq, Repr

/-- The analysis result (source `AnalysisResult`). -/
structure AnalysisResult where
  interactions : List Interaction
  ligandCenter : P3
deriving DecidableEq, Repr

/-! Constants from `constants.ts`. -/

/-- Heavy-atom hydrogen-bond distance cutoff (Å). -/
def hbondDist : ℚ := 3.5

/-- Salt-bridge distance cutoff (Å). -/
def saltBridgeDist : ℚ := 4.0

/-- Hydrophobic carbon-carbon contact cutoff (Å). -/
def hydrophobicDist : ℚ := 4.5

/-- Ring-centroid to ring-centroid stacking cutoff (Å). -/
def piStackingDist : ℚ := 5.5

/-- Ring-centroid to charge-center cutoff (Å). -/
def piCationDist : ℚ := 5.0

/-- Halogen-bond distance cutoff (Å). -/
def halogenDist : ℚ := 3.5

/-- Metal-coordination distance cutoff (Å). -/
def metalDist : ℚ := 2.8

/-- The coarse pocket-filter radius (Å), hard-coded as `18.0` in
`analyzeInteractions`. -/
def coarseRadius : ℚ := 18.0

/-- The ring-perception covalent-bond heuristic threshold (Å), hard-coded as
`1.65` in `findLigandRings`. -/
def bondThreshold : ℚ := 1.65

/-- Squaring helper for threshold comparisons (see the header comment on the
squared-distance convention). -/
def sq (q : ℚ) : ℚ := q * q

/-- Hydrogen-bond donor elements (`ATOM_PROPS.DONORS`). -/
def DONORS : List String := ["N", "O", "S"]

/-- Hydrogen-bond acceptor elements (`ATOM_PROPS.ACCEPTORS`). -/
def ACCEPTORS : List String := ["N", "O", "S"]

/-- Halogen-bond donor elements (`ATOM_PROPS.HALOGENS`). -/
def HALOGENS : List String := ["CL", "BR", "I"]

/-- Metal elements (`ATOM_PROPS.METALS`). -/
def METALS : List String := ["ZN", "MG", "FE", "CU", "CA", "NA", "K", "MN", "CO", "NI"]

/-- Protein positive-charge center atom names per residue
(`ATOM_PROPS.POS_CHARGE_ATOMS`); `none` models a missing object key. -/
def POS_CHARGE_ATOMS (r : String) : Option (List String) :=
  if r = "ARG" then some ["NH1", "NH2", "CZ"]
  else if r = "LYS" then some ["NZ"]
  else if r = "HIS" then some ["ND1", "NE2"]
  else none

/-- Protein negative-charge center atom names per residue
(`ATOM_PROPS.NEG_CHARGE_ATOMS`). -/
def NEG_CHARGE_ATOMS (r : String) : Option (List String) :=
  if r = "ASP" then some ["OD1", "OD2"]
  else if r = "GLU" then some ["OE1", "OE2"]
  else none

/-- Aromatic ring atom names per residue (`ATOM_PROPS.AROMATIC_PLANES`). -/
def AROMATIC_PLANES (r : String) : Option (List String) :=
  if r = "PHE" then some ["CG", "CD1", "CD2", "CE1", "CE2", "CZ"]
  else if r = "TYR" then some ["CG", "CD1", "CD2", "CE1", "CE2", "CZ"]
  else if r = "TRP" then some ["CG", "CD1", "CD2", "NE1", "CE2", "CE3", "CZ2", "CZ3", "CH2"]
  else if r = "HIS" then some ["CG", "ND1", "CD2", "CE1", "NE2"]
  else none

/-- Whether the second character list is an initial segment of the first. -/
def charsStartWith : List Char → List Char → Bool
  | _, [] => true
  | [], _ :: _ => false
  | c :: cs, p :: ps => c == p && charsStartWith cs ps

/-- Whether the second character list occurs inside the first. -/
def charsContain : List Char → List Char → Bool
  | [], p => p.isEmpty
  | c :: rest, p => charsStartWith (c :: rest) p || charsContain rest p

/-- JS `String.prototype.includes`: `pat` occurs as a contiguous substring of
`s`. -/
def jsIncludes (s pat : String) : Bool := charsContain s.data pat.data

/-- JS `String.prototype.toUpperCase` on the ASCII names the source handles,
as a structural map over the character list. -/
def jsToUpper (s : String) : String := ⟨s.data.map Char.toUpper⟩

/-- JS `String.prototype.trim` (strip whitespace from both ends), as
structural character-list operations. -/
def jsTrim (s : String) : String :=
  ⟨((s.data.dropWhile Char.isWhitespace).reverse.dropWhile Char.isWhitespace).reverse⟩

/-! Ring perception (`findLigandRings`). -/

/-- Ring-perception DFS state: the dedup key set (`visitedPaths`, each key the
ascending sort of a path) and the accepted rings (as lists of positions into
the ligand atom list), both in insertion order. -/
structure RingState where
  keys : List (List ℕ)
  rings : List (List ℕ)
deriving DecidableEq, Repr

/-- Record a completed ring path, deduplicating by its sorted position list
(the source joins the sorted indices with `,`, which is a bijective encoding
of the sorted list). -/
def ringPush (st : RingState) (path : List ℕ) : RingState :=
  let key := path.insertionSort (· ≤ ·)
  if key ∈ st.keys then st
  else ⟨st.keys ++ [key], st.rings ++ [path]⟩

/-- The bounded DFS of `findLigandRings`.  `adjL` is the materialized adjacency
list; `fuel` starts at 7, so it reaches 0 exactly when `path.length` exceeds 6,
making the two bounds coincide (see the header comment). -/
def ringDfs (adjL : List (List ℕ)) (start : ℕ) :
    ℕ → ℕ → List ℕ → RingState → RingState
  | 0, _, _, st => st
  | fuel + 1, current, path, st =>
    if 6 < path.length then st
    else if 5 ≤ path.length ∧ start ∈ adjL.getD current [] then ringPush st path
    else
      (adjL.getD current []).foldl
        (fun s nb => if nb ∈ path then s else ringDfs adjL start fuel nb (path ++ [nb]) s)
        st

/-- The adjacency lists of the bond graph: positions `i ≠ j` are bonded iff
their distance is below 1.65 Å.  The source builds these lists with a double
loop over `i < j` pushing both directions, which yields for every position the
ascending list of its neighbours — exactly this `range`/`filter`. -/
def buildAdj (atoms : List AtomData) : List (List ℕ) :=
  (List.range atoms.length).map fun i =>
    (List.range atoms.length).filter fun j =>
      decide (j ≠ i) &&
        decide (distanceSq (atoms.getD i dAtom).pos (atoms.getD j dAtom).pos < sq bondThreshold)

/-- The complete DFS sweep of ring perception: run the bounded DFS from every
carbon or nitrogen start position, threading the shared state. -/
def ringSearch (atoms : List AtomData) : RingState :=
  (List.range atoms.length).foldl
    (fun s i =>
      if (atoms.getD i dAtom).element ∈ ["C", "N"] then
        ringDfs (buildAdj atoms) i 7 i [i] s
      else s)
    ⟨[], []⟩

/-- Geometric ring perception over the ligand atoms (source `findLigandRings`):
DFS from every carbon or nitrogen start atom, accepting simple paths of length
5 or 6 whose end is bonded to the start. -/
def findLigandRings (atoms : List AtomData) : List (List AtomData) :=
  if atoms.length = 0 then []
  else (ringSearch atoms).rings.map fun path => path.map fun idx => atoms.getD idx dAtom

/-! Angle tests.  `angleBetween v w` in the source is
`acos (clamp [0,1] (|dot v w| / (mag v * mag w))) * 180 / pi` for nonzero
vectors and `0` when either magnitude is zero.  For nonzero `v`, `w` the
clamped cosine `c` lies in `[0,1]` (Cauchy-Schwarz holds exactly over `ℚ`),
so the angle lies in `[0°, 90°]` and for a threshold `τ ∈ (0°, 90°)`:
`angle < τ ↔ c > cos τ ↔ c^2 > (cos τ)^2 ↔ dot^2 * 1 > (cos τ)^2 * magSq v * magSq w`.
With `(cos 30°)^2 = 3/4` and `(cos 60°)^2 = 1/4` this gives the two decidable
tests below; `angle > 150` and `angle ≥ 120` are impossible for an angle in
`[0°, 90°]`, which the definitions record. -/

/-- The source's `isParallel` test for two plane normals:
`angle < 30 || angle > 150`.  When either normal is zero the source's
`angleBetween` returns `0`, which satisfies `0 < 30` — the test passes by
default.  Otherwise `angle < 30 ↔ 3·magSq v·magSq w < 4·dot²`, and
`angle > 150` is impossible (the angle is at most 90°). -/
def isParallelNormals (v w : P3) : Bool :=
  decide ((magSq v = 0 ∨ magSq w = 0) ∨ 3 * (magSq v * magSq w) < 4 * (dot v w * dot v w))

/-- The source's `isTShaped` test: `angle > 60 && angle < 120`.  When either
normal is zero the angle is `0`, failing `angle > 60`; otherwise
`angle > 60 ↔ 4·dot² < magSq v·magSq w`, and `angle < 120` always holds (the
angle is at most 90°). -/
def isTShapedNormals (v w : P3) : Bool :=
  decide (¬(magSq v = 0 ∨ magSq w = 0) ∧ 4 * (dot v w * dot v w) < magSq v * magSq w)

/-! The interaction engine (`analyzeInteractions`). -/

/-- Whether an atom belongs to the selected ligand residue: chain, residue
number and residue name must all match. -/
def isLigandAtom (sel : ResidueOption) (a : AtomData) : Prop :=
  a.resNo = sel.resNo ∧ a.chain = sel.chain ∧ a.resName = sel.resName

instance (sel : ResidueOption) (a : AtomData) : Decidable (isLigandAtom sel a) := by
  unfold isLigandAtom; infer_instance

/-- The ligand atom list: atoms matching the selector, in traversal order. -/
def ligandAtomsOf (s : Structure) (sel : ResidueOption) : List AtomData :=
  s.atoms.filter fun a => decide (isLigandAtom sel a)

/-- The protein atom list: non-hetero atoms not matching the selector, in
traversal order. -/
def proteinAtomsOf (s : Structure) (sel : ResidueOption) : List AtomData :=
  s.atoms.filter fun a => decide (¬isLigandAtom sel a) && decide (a.isHet = false)

/-- The ligand centroid. -/
def ligandCenterOf (s : Structure) (sel : ResidueOption) : P3 :=
  getCenter ((ligandAtomsOf s sel).map AtomData.pos)

/-- The coarse 18 Å pocket filter over the protein atoms. -/
def relevantProteinAtomsOf (s : Structure) (sel : ResidueOption) : List AtomData :=
  (proteinAtomsOf s sel).filter fun a =>
    decide (distanceSq a.pos (ligandCenterOf s sel) < sq coarseRadius)

/-- The grouping key of the per-residue pass; the source uses the string
`` `${chain}:${resNo}` ``, in bijection with this pair. -/
def groupKey (a : AtomData) : String × ℤ := (a.chain, a.resNo)

/-- Add an atom to the residue buckets (JS plain-object semantics: a new
non-numeric key is appended in insertion order, an existing key keeps its
position and its bucket grows at the end). -/
def addToGroups (gs : List ((String × ℤ) × List AtomData)) (a : AtomData) :
    List ((String × ℤ) × List AtomData) :=
  if gs.any fun g => decide (g.1 = groupKey a) then
    gs.map fun g => if g.1 = groupKey a then (g.1, g.2 ++ [a]) else g
  else gs ++ [(groupKey a, [a])]

/-- Group the filtered protein atoms by chain and residue number
(`proteinResidues` with `Object.values` enumeration order). -/
def groupByRes (l : List AtomData) : List (List AtomData) :=
  (l.foldl addToGroups []).map Prod.snd

/-- Precomputed data of one ligand ring (`ligandRingData` entries). -/
structure RingInfo where
  center : P3
  normal : P3
  ringAtoms : List AtomData
deriving DecidableEq, Repr

/-- Ring centroid/normal precomputation over the ligand rings. -/
def ringInfosOf (ligAtoms : List AtomData) : List RingInfo :=
  (findLigandRings ligAtoms).map fun r =>
    ⟨getCenter (r.map AtomData.pos), getPlaneNormalDir (r.map AtomData.pos), r⟩

/-- A raw interaction candidate before id assignment: the id tag prefix, the
type, the squared stored distance and the two representative atoms. -/
structure Cand where
  tag : String
  type : InteractionType
  distanceSq : ℚ
  ligandAtom : AtomData
  proteinAtom : AtomData
deriving DecidableEq, Repr

/-- The per-residue detection pass (step A: plane stacking and ring-cation
tests against the residue's aromatic plane; step B: salt-bridge and
cation-ring tests against the residue's charge centers), in source push
order. -/
def resCands (ligAtoms : List AtomData) (ringInfos : List RingInfo)
    (resAtoms : List AtomData) : List Cand :=
  let resName := (resAtoms.headD dAtom).resName
  let aromPart : List Cand :=
    match AROMATIC_PLANES resName with
    | none => []
    | some aromDef =>
      let ringAtoms := resAtoms.filter fun a => aromDef.contains a.name
      if 3 ≤ ringAtoms.length then
        let pCenter := getCenter (ringAtoms.map AtomData.pos)
        let pNormal := getPlaneNormalDir (ringAtoms.map AtomData.pos)
        (ringInfos.flatMap fun lR =>
          let d2 := distanceSq pCenter lR.center
          if d2 ≤ sq piStackingDist ∧
              (isParallelNormals pNormal lR.normal = true ∨
                isTShapedNormals pNormal lR.normal = true) then
            [⟨"pi-", .piStacking, d2, lR.ringAtoms.headD dAtom, ringAtoms.headD dAtom⟩]
          else []) ++
        (ligAtoms.flatMap fun l =>
          if (l.element = "N" ∨ jsIncludes l.name "NH" = true) ∧
              distanceSq l.pos pCenter < sq piCationDist then
            [⟨"pic-", .piStacking, distanceSq l.pos pCenter, l, ringAtoms.headD dAtom⟩]
          else [])
      else []
  let posPart : List Cand :=
    match POS_CHARGE_ATOMS resName with
    | none => []
    | some posDef =>
      let posAtoms := resAtoms.filter fun a => posDef.contains a.name
      if 0 < posAtoms.length then
        let pPosCenter := getCenter (posAtoms.map AtomData.pos)
        (ringInfos.flatMap fun lR =>
          if distanceSq pPosCenter lR.center < sq piCationDist then
            [⟨"pic-", .piStacking, distanceSq pPosCenter lR.center,
              lR.ringAtoms.headD dAtom, posAtoms.headD dAtom⟩]
          else []) ++
        (ligAtoms.flatMap fun l =>
          if l.element ∈ ["O", "S", "P"] ∧ distanceSq l.pos pPosCenter < sq saltBridgeDist then
            [⟨"sb-", .saltBridge, distanceSq l.pos pPosCenter, l, posAtoms.headD dAtom⟩]
          else [])
      else []
  let negPart : List Cand :=
    match NEG_CHARGE_ATOMS resName with
    | none => []
    | some negDef =>
      let negAtoms := resAtoms.filter fun a => negDef.contains a.name
      if 0 < negAtoms.length then
        let pNegCenter := getCenter (negAtoms.map AtomData.pos)
        ligAtoms.flatMap fun l =>
          if (l.element = "N" ∨ jsIncludes l.name "NH" = true) ∧
              distanceSq l.pos pNegCenter < sq saltBridgeDist then
            [⟨"sb-", .saltBridge, distanceSq l.pos pNegCenter, l, negAtoms.headD dAtom⟩]
          else []
      else []
  aromPart ++ posPart ++ negPart

/-- The per-atom-pair detection pass (step C: hydrogen bond, halogen bond,
hydrophobic contact, metal coordination for one ligand/protein atom pair),
with the early exit above the larger of the hydrogen-bond and hydrophobic
cutoffs. -/
def pairCands (l p : AtomData) : List Cand :=
  let d2 := distanceSq l.pos p.pos
  if sq (max hbondDist hydrophobicDist) < d2 then []
  else
    (if d2 ≤ sq hbondDist ∧
        ((DONORS.contains l.element = true ∧ ACCEPTORS.contains p.element = true) ∨
          (ACCEPTORS.contains l.element = true ∧ DONORS.contains p.element = true)) then
      [⟨"hb-", .hydrogenBond, d2, l, p⟩]
    else []) ++
    (if HALOGENS.contains (jsToUpper l.element) = true ∧ ACCEPTORS.contains p.element = true ∧
        d2 ≤ sq halogenDist then
      [⟨"xb-", .halogenBond, d2, l, p⟩]
    else []) ++
    (if l.element = "C" ∧ p.element = "C" ∧ d2 ≤ sq hydrophobicDist then
      [⟨"hp-", .hydrophobic, d2, l, p⟩]
    else []) ++
    (if (METALS.contains (jsToUpper l.element) = true ∨
          METALS.contains (jsToUpper p.element) = true) ∧
        d2 ≤ sq metalDist then
      [⟨"mt-", .metalCoordination, d2, l, p⟩]
    else [])

/-- All raw candidates in source push order: the residue pass over the
residue groups, then the atom-pair pass over ligand × filtered-protein. -/
def candList (ligAtoms relevant : List AtomData) : List Cand :=
  ((groupByRes relevant).flatMap (resCands ligAtoms (ringInfosOf ligAtoms))) ++
    (ligAtoms.flatMap fun l => relevant.flatMap fun p => pairCands l p)

/-- Assign the running ids: the source's single `idCounter` increments at every
push, so an interaction's number is its position in the raw candidate list. -/
def mkInteraction (n : ℕ) (c : Cand) : Interaction :=
  ⟨c.tag ++ toString n, c.type, c.distanceSq, c.ligandAtom, c.proteinAtom⟩

/-- The raw (pre-deduplication) interaction list of one analysis. -/
def rawInteractions (ligAtoms relevant : List AtomData) : List Interaction :=
  (candList ligAtoms relevant).enum.map fun nc => mkInteraction nc.1 nc.2

/-- The deduplication key of an interaction; the source uses the string
`` `${ligandAtom.index}-${proteinAtom.index}` ``, in bijection with this
pair of naturals. -/
def pairKey (i : Interaction) : ℕ × ℕ := (i.ligandAtom.index, i.proteinAtom.index)

/-- The priority of an interaction type in deduplication (source `typeScore`):
salt bridge 4, plane stacking 3, hydrogen bond 2, everything else 1. -/
def typeScore : InteractionType → ℕ
  | .saltBridge => 4
  | .piStacking => 3
  | .hydrogenBond => 2
  | _ => 1

/-- JS `Map.set` on an association list: replace the (unique) entry holding
the key in place, or append a new entry at the end. -/
def setPair : List ((ℕ × ℕ) × Interaction) → (ℕ × ℕ) → Interaction →
    List ((ℕ × ℕ) × Interaction)
  | [], k, i => [(k, i)]
  | e :: rest, k, i => if e.1 = k then (k, i) :: rest else e :: setPair rest k i

/-- One deduplication step: a first candidate for a key is stored; a later
candidate replaces the stored one only when its `typeScore` is strictly
higher. -/
def dedupStep (m : List ((ℕ × ℕ) × Interaction)) (i : Interaction) :
    List ((ℕ × ℕ) × Interaction) :=
  match m.find? fun e => decide (e.1 = pairKey i) with
  | none => m ++ [(pairKey i, i)]
  | some e => if typeScore e.2.type < typeScore i.type then setPair m (pairKey i) i else m

/-- Deduplication: fold the raw list into the keyed map, then enumerate the
surviving values in key insertion order (`Array.from(pairMap.values())`). -/
def dedupInteractions (l : List Interaction) : List Interaction :=
  (l.foldl dedupStep []).map Prod.snd

/-- The raw candidate list of one analysis of a structure, before
deduplication: ligand atoms against the coarse-filtered protein atoms. -/
def rawInteractionsOf (s : Structure) (sel : ResidueOption) : List Interaction :=
  rawInteractions (ligandAtomsOf s sel) (relevantProteinAtomsOf s sel)

/-- The interaction engine (source `analyzeInteractions`): partition the atoms,
return the empty result for a missing ligand, apply the 18 Å coarse filter,
and deduplicate the raw candidate list. -/
def analyzeInteractions (s : Structure) (sel : ResidueOption) : AnalysisResult :=
  if (ligandAtomsOf s sel).isEmpty then ⟨[], ⟨0, 0, 0⟩⟩
  else ⟨dedupInteractions (rawInteractionsOf s sel), ligandCenterOf s sel⟩

/-- Modelled from the spec: the same analysis with the 18 Å coarse centroid
filter removed (every protein atom enters the residue grouping and the
atom-pair pass).  This is the reference point of the spec's claim that the
coarse filter is a correctness-preserving optimization; it is not a function
of the repository. -/
def analyzeInteractionsUnfiltered (s : Structure) (sel : ResidueOption) : AnalysisResult :=
  if (ligandAtomsOf s sel).isEmpty then ⟨[], ⟨0, 0, 0⟩⟩
  else
    ⟨dedupInteractions (rawInteractions (ligandAtomsOf s sel) (proteinAtomsOf s sel)),
      ligandCenterOf s sel⟩

/-- Name-based residue lookup (source `findResidueByName`): the first residue
in traversal order whose uppercased name equals the uppercased-and-trimmed
query; `none` when absent.  JS `toUpperCase`/`trim` are modelled by
`jsToUpper`/`jsTrim` (the names involved are ASCII). -/
def findResidueByName (s : Structure) (queryName : String) : Option ResidueOption :=
  let q := jsTrim (jsToUpper queryName)
  s.residues.find? fun rp => decide (jsToUpper rp.resName = q)

/-! The real-valued geometry functions of `geometryUtils.ts` that involve
`Math.sqrt` / `Math.acos`.  These are the exact real-number readings of the
source; they are used by the claims about the degenerate (zero-magnitude)
guards. -/

/-- The source's `mag`: Euclidean magnitude. -/
noncomputable def mag (v : P3) : ℝ := Real.sqrt ((magSq v : ℚ) : ℝ)

/-- The source's `normalize`: the zero vector when the magnitude is zero
(the guarded division), otherwise the unit vector. -/
noncomputable def normalize (v : P3) : ℝ × ℝ × ℝ :=
  if mag v = 0 then (0, 0, 0)
  else ((v.x : ℝ) / mag v, (v.y : ℝ) / mag v, (v.z : ℝ) / mag v)

/-- The source's `angleBetween`: `0` when either magnitude is zero, otherwise
the acute angle in degrees between the two directions (absolute value of the
cosine, clamped to `[-1, 1]`, before the inverse cosine). -/
noncomputable def angleBetween (v1 v2 : P3) : ℝ :=
  if mag v1 = 0 ∨ mag v2 = 0 then 0
  else
    Real.arccos (max (-1) (min 1 (|(dot v1 v2 : ℚ)| / (mag v1 * mag v2)))) * 180 / Real.pi

/-! Concrete structures used to evaluate the engine at specific inputs. -/

/-- A ligand oxygen at the origin. -/
def ligO : AtomData := ⟨0, "O1", "O", 0, 0, 0, "LIG", 1, "A", true⟩

/-- A protein backbone nitrogen 3 Å above `ligO`. -/
def protN : AtomData := ⟨1, "N", "N", 0, 0, 3, "GLY", 2, "A", false⟩

/-- Ligand O / protein N structure (one hydrogen bond at 3 Å). -/
def hbS : Structure := ⟨[ligO, protN], []⟩

/-- Selector of the ligand residue of `hbS`. -/
def hbSel : ResidueOption := ⟨"LIG", 1, "A", 1⟩

/-- A ligand nitrogen at the origin. -/
def aspLigN : AtomData := ⟨0, "N1", "N", 0, 0, 0, "LIG", 1, "A", true⟩

/-- ASP carboxylate oxygen OD1, 2 Å above the ligand nitrogen. -/
def aspOD1 : AtomData := ⟨1, "OD1", "O", 0, 0, 2, "ASP", 5, "A", false⟩

/-- ASP carboxylate oxygen OD2, 4 Å above the ligand nitrogen. -/
def aspOD2 : AtomData := ⟨2, "OD2", "O", 0, 0, 4, "ASP", 5, "A", false⟩

/-- Ligand N against an ASP carboxylate: the (ligand N, OD1) pair receives both
a salt-bridge candidate (measured to the OD1/OD2 midpoint, 3 Å) and a
hydrogen-bond candidate (measured atom-to-atom, 2 Å). -/
def aspS : Structure := ⟨[aspLigN, aspOD1, aspOD2], []⟩

/-- Selector of the ligand residue of `aspS`. -/
def aspSel : ResidueOption := ⟨"LIG", 1, "A", 1⟩

/-- First carbon of a two-atom, 40 Å long ligand. -/
def bigL1 : AtomData := ⟨0, "C1", "C", 0, 0, 0, "LIG", 1, "A", true⟩

/-- Second carbon of the long ligand, 40 Å below the first. -/
def bigL2 : AtomData := ⟨1, "C2", "C", 0, 0, -40, "LIG", 1, "A", true⟩

/-- A protein carbon 3 Å from `bigL1` but 23 Å from the ligand centroid. -/
def bigP : AtomData := ⟨2, "CA", "C", 0, 0, 3, "GLY", 2, "A", false⟩

/-- The long-ligand structure on which the coarse 18 Å filter discards a true
hydrophobic contact. -/
def bigS : Structure := ⟨[bigL1, bigL2, bigP], []⟩

/-- Selector of the ligand residue of `bigS`. -/
def bigSel : ResidueOption := ⟨"LIG", 1, "A", 2⟩

/-- Pentagon ligand atom 0 (at the origin). -/
def pentA0 : AtomData := ⟨0, "C1", "C", 0, 0, 0, "LIG", 1, "A", true⟩

/-- Pentagon ligand atom 1. -/
def pentA1 : AtomData := ⟨1, "C2", "C", 0.75, 1.2, 0, "LIG", 1, "A", true⟩

/-- Pentagon ligand atom 2 (collinear with atoms 0 and 4). -/
def pentA2 : AtomData := ⟨2, "C3", "C", 1.5, 0, 0, "LIG", 1, "A", true⟩

/-- Pentagon ligand atom 3. -/
def pentA3 : AtomData := ⟨3, "C4", "C", 0, -0.5, 0, "LIG", 1, "A", true⟩

/-- Pentagon ligand atom 4 (collinear with atoms 0 and 2). -/
def pentA4 : AtomData := ⟨4, "C5", "C", -1.5, 0, 0, "LIG", 1, "A", true⟩

/-- HIS ring atom CG, 5 Å above the pentagon plane. -/
def hisCG : AtomData := ⟨5, "CG", "C", 0.15, 0.14, 5, "HIS", 7, "A", false⟩

/-- HIS ring atom ND1. -/
def hisND1 : AtomData := ⟨6, "ND1", "N", 1.35, 0.14, 5, "HIS", 7, "A", false⟩

/-- HIS ring atom CD2. -/
def hisCD2 : AtomData := ⟨7, "CD2", "C", 0.75, 1.04, 5, "HIS", 7, "A", false⟩

/-- A ligand 5-ring whose DFS path `[0,1,2,3,4]` has its first, middle and
last atoms collinear (so the ring's plane normal is the zero vector), with a
protein HIS aromatic plane within stacking distance above it. -/
def pentS : Structure :=
  ⟨[pentA0, pentA1, pentA2, pentA3, pentA4, hisCG, hisND1, hisCD2], []⟩

/-- Selector of the ligand residue of `pentS`. -/
def pentSel : ResidueOption := ⟨"LIG", 1, "A", 5⟩

/-- Six ligand carbons forming one hexagonal ring (bond lengths about 1.4 Å). -/
def hexAtoms : List AtomData :=
  [⟨0, "C1", "C", 0, 0, 0, "LIG", 1, "A", true⟩,
   ⟨1, "C2", "C", 1.4, 0, 0, "LIG", 1, "A", true⟩,
   ⟨2, "C3", "C", 2.1, 1.2, 0, "LIG", 1, "A", true⟩,
   ⟨3, "C4", "C", 1.4, 2.4, 0, "LIG", 1, "A", true⟩,
   ⟨4, "C5", "C", 0, 2.4, 0, "LIG", 1, "A", true⟩,
   ⟨5, "C6", "C", -0.7, 1.2, 0, "LIG", 1, "A", true⟩]

/-- The hydrogen-bond record the engine produces on `hbS`. -/
def hbInter : Interaction := ⟨"hb-0", .hydrogenBond, 9, ligO, protN⟩

/-- Residue list used to evaluate `findResidueByName`. -/
def resList : List ResidueOption :=
  [⟨"GLY", 1, "A", 4⟩, ⟨"LIG", 2, "A", 10⟩, ⟨"LIG", 3, "A", 8⟩]

/-- Structure wrapping `resList`. -/
def resS : Structure := ⟨[], resList⟩

/-- Whether a residue name matches a query after the source's normalization:
uppercase the stored name, uppercase and trim the query. -/
def residueNameMatches (q : String) (rp : ResidueOption) : Prop :=
  jsToUpper rp.resName = jsTrim (jsToUpper q)

instance (q : String) (rp : ResidueOption) : Decidable (residueNameMatches q rp) := by
  unfold residueNameMatches; infer_instance

/-- Equality of atom-index pairs up to order. -/
def unordEq (p q : ℕ × ℕ) : Prop := p = q ∨ (p.1 = q.2 ∧ p.2 = q.1)

/-! Deduplication machinery: the fold over `dedupStep` keeps, for every atom
pair, exactly the first raw candidate of maximal `typeScore`. -/

/-- Candidates of a given atom-pair key inside a list. -/
def filtKey (k : ℕ × ℕ) (l : List Interaction) : List Interaction :=
  l.filter fun j => decide (pairKey j = k)

/-- Every map entry is keyed by its value's own atom pair. -/
def entriesOk (m : List ((ℕ × ℕ) × Interaction)) : Prop :=
  ∀ e ∈ m, e.1 = pairKey e.2

/-- The map keys are pairwise distinct. -/
def keysNodup (m : List ((ℕ × ℕ) × Interaction)) : Prop :=
  (m.map Prod.fst).Nodup

/-- The stored value of every key is the first maximal-score candidate among
the processed raw interactions with that key: the candidates before it score
strictly lower, the ones after it score no higher. -/
def traceOk (done : List Interaction) (m : List ((ℕ × ℕ) × Interaction)) : Prop :=
  ∀ k : ℕ × ℕ,
    (∀ e, m.find? (fun e2 => decide (e2.1 = k)) = some e →
      ∃ pre post, filtKey k done = pre ++ e.2 :: post ∧
        (∀ j ∈ pre, typeScore j.type < typeScore e.2.type) ∧
        (∀ j ∈ post, typeScore j.type ≤ typeScore e.2.type)) ∧
    (m.find? (fun e2 => decide (e2.1 = k)) = none → filtKey k done = [])

/-- The full invariant of the deduplication fold. -/
def DedupInv (done : List Interaction) (m : List ((ℕ × ℕ) × Interaction)) : Prop :=
  entriesOk m ∧ keysNodup m ∧ traceOk done m

/-! Ring-perception machinery: every accepted path has length 5 or 6, visits
pairwise distinct in-range positions, and the accepted paths have pairwise
distinct sorted position lists. -/

/-- The deduplication key of a ring path: its ascending sort. -/
def sortKey (p : List ℕ) : List ℕ := p.insertionSort (· ≤ ·)

/-- A well-formed accepted ring path over `n` atoms. -/
def pathOk (n : ℕ) (p : List ℕ) : Prop :=
  (p.length = 5 ∨ p.length = 6) ∧ p.Nodup ∧ ∀ idx ∈ p, idx < n

/-- The ring-state invariant: all accepted paths are well-formed, every
accepted path's key is recorded, and the accepted keys are pairwise
distinct. -/
def RingsOk (n : ℕ) (st : RingState) : Prop :=
  (∀ r ∈ st.rings, pathOk n r) ∧
    (∀ r ∈ st.rings, sortKey r ∈ st.keys) ∧
    (st.rings.map sortKey).Nodup

/-! Theorems. -/

/-- The squared magnitude of a rational vector is zero exactly on the zero
vector, so the source's `mag v === 0` guard and `magSq v = 0` agree. -/
theorem magSq_nonneg (v : P3) : 0 ≤ magSq v := by
  unfold magSq
  have hx := mul_self_nonneg v.x
  have hy := mul_self_nonneg v.y
  have hz := mul_self_nonneg v.z
  linarith

/-- The real magnitude vanishes exactly when the squared magnitude does. -/
theorem mag_eq_zero_iff (v : P3) : mag v = 0 ↔ magSq v = 0 := by
  unfold mag
  rw [Real.sqrt_eq_zero (by exact_mod_cast magSq_nonneg v)]
  norm_cast

/-- C10: `angleBetween` returns 0 degrees whenever either input vector has
zero (squared) magnitude, and `normalize` returns the zero vector for a
zero-magnitude input: the division by the magnitude is guarded, so a
degenerate plane normal yields the angle 0 rather than a division by zero. -/
theorem claim10_degenerate_guards (v w u : P3)
    (h : magSq v = 0 ∨ magSq w = 0) (hu : magSq u = 0) :
    angleBetween v w = 0 ∧ normalize u = (0, 0, 0) := by
  constructor
  · unfold angleBetween
    rw [if_pos]
    rcases h with h | h
    · exact Or.inl ((mag_eq_zero_iff v).mpr h)
    · exact Or.inr ((mag_eq_zero_iff w).mpr h)
  · unfold normalize
    rw [if_pos ((mag_eq_zero_iff u).mpr hu)]

/-- Witness for C10 at the zero vector against `(1, 2, 2)`. -/
theorem claim10_witness :
    (magSq ⟨0, 0, 0⟩ = 0 ∨ magSq ⟨1, 2, 2⟩ = 0) ∧ magSq ⟨0, 0, 0⟩ = 0 ∧
      (angleBetween ⟨0, 0, 0⟩ ⟨1, 2, 2⟩ = 0 ∧ normalize ⟨0, 0, 0⟩ = (0, 0, 0)) :=
  ⟨Or.inl (by norm_num [magSq]), by norm_num [magSq],
    claim10_degenerate_guards _ _ _ (Or.inl (by norm_num [magSq])) (by norm_num [magSq])⟩

/-- C7: a structure with no atom matching the ligand selector yields the empty
interaction list and the zero-vector center (the embedding is a total
function, so no exception is possible). -/
theorem claim7_no_ligand (s : Structure) (sel : ResidueOption)
    (h : ∀ a ∈ s.atoms, ¬ isLigandAtom sel a) :
    analyzeInteractions s sel = ⟨[], ⟨0, 0, 0⟩⟩ := by
  have hlig : ligandAtomsOf s sel = [] := by
    unfold ligandAtomsOf
    apply List.filter_eq_nil_iff.mpr
    intro a ha
    simpa using h a ha
  unfold analyzeInteractions
  rw [hlig]
  rfl

/-- Witness for C7: `hbS` with a selector matching none of its atoms. -/
theorem claim7_witness :
    (∀ a ∈ hbS.atoms, ¬ isLigandAtom ⟨"XYZ", 9, "B", 0⟩ a) ∧
      analyzeInteractions hbS ⟨"XYZ", 9, "B", 0⟩ = ⟨[], ⟨0, 0, 0⟩⟩ :=
  ⟨by decide, claim7_no_ligand hbS ⟨"XYZ", 9, "B", 0⟩ (by decide)⟩

/-- C8: `findResidueByName` returns the first residue in structure traversal
order whose name matches the query case-insensitively after trimming, and
returns `none` (not an error) when no residue matches. -/
theorem claim8_find_residue (s : Structure) (q : String) :
    ((∀ rp ∈ s.residues, ¬ residueNameMatches q rp) → findResidueByName s q = none) ∧
      (∀ pre rp post, s.residues = pre ++ rp :: post →
        (∀ r2 ∈ pre, ¬ residueNameMatches q r2) → residueNameMatches q rp →
        findResidueByName s q = some rp) := by
  constructor
  · intro h
    simp only [findResidueByName]
    apply List.find?_eq_none.mpr
    intro rp hrp
    simpa [residueNameMatches] using h rp hrp
  · intro pre rp post hsplit hpre hrp
    simp only [findResidueByName]
    rw [hsplit, List.find?_append]
    have h1 : pre.find? (fun r2 => decide (jsToUpper r2.resName = jsTrim (jsToUpper q))) =
        none := by
      apply List.find?_eq_none.mpr
      intro r2 hr2
      simpa [residueNameMatches] using hpre r2 hr2
    rw [h1]
    have h2 : (rp :: post).find?
        (fun r2 => decide (jsToUpper r2.resName = jsTrim (jsToUpper q))) = some rp :=
      List.find?_cons_of_pos _ (by simpa [residueNameMatches] using hrp)
    rw [h2]
    rfl

/-- Witness for C8 on `resS`: the query `" lig "` skips the non-matching GLY
and returns the first of the two LIG residues; a missing name gives `none`. -/
theorem claim8_witness :
    findResidueByName resS " lig " = some ⟨"LIG", 2, "A", 10⟩ ∧
      findResidueByName resS "ZZZ" = none :=
  ⟨(claim8_find_residue resS " lig ").2 [⟨"GLY", 1, "A", 4⟩] ⟨"LIG", 2, "A", 10⟩
      [⟨"LIG", 3, "A", 8⟩] rfl (by decide) (by decide),
    (claim8_find_residue resS "ZZZ").1 (by decide)⟩

/-- C1 counterexample: on the 40 Å long ligand `bigS`, the analysis with the
coarse 18 Å centroid filter differs from the spec's unfiltered reference
analysis — the filter drops the protein carbon 23 Å from the ligand centroid
even though it is only 3 Å from a ligand atom, discarding the hydrophobic
contact, so the filter is not correctness-preserving in general. -/
theorem claim1_counterexample :
    analyzeInteractions bigS bigSel ≠ analyzeInteractionsUnfiltered bigS bigSel := by
  decide

/-- C1 amended: the coarse filter only discards protein atoms at distance of
at least 18 Å from the ligand centroid; whenever every protein atom lies
within 18 Å of the ligand centroid (in particular for any structure whose
ligand-site geometry is compact), the filtered analysis coincides with the
spec's unfiltered reference analysis. -/
theorem claim1_amended (s : Structure) (sel : ResidueOption)
    (h : ∀ a ∈ proteinAtomsOf s sel,
      distanceSq a.pos (ligandCenterOf s sel) < sq coarseRadius) :
    analyzeInteractions s sel = analyzeInteractionsUnfiltered s sel := by
  have hrel : relevantProteinAtomsOf s sel = proteinAtomsOf s sel := by
    unfold relevantProteinAtomsOf
    apply List.filter_eq_self.mpr
    intro a ha
    exact decide_eq_true (h a ha)
  unfold analyzeInteractions analyzeInteractionsUnfiltered rawInteractionsOf
  rw [hrel]

/-- `setPair` leaves the entry found under any other key unchanged. -/
theorem setPair_find_ne (m : List ((ℕ × ℕ) × Interaction)) (k : ℕ × ℕ) (i : Interaction)
    (k2 : ℕ × ℕ) (h : k2 ≠ k) :
    (setPair m k i).find? (fun e => decide (e.1 = k2)) =
      m.find? (fun e => decide (e.1 = k2)) := by
  induction m with
  | nil => simp [setPair, Ne.symm h]
  | cons e rest ih =>
    by_cases he : e.1 = k
    · rw [show setPair (e :: rest) k i = (k, i) :: rest by simp [setPair, he]]
      rw [List.find?_cons_of_neg _ (by simp [Ne.symm h]),
        List.find?_cons_of_neg _ (by simp [he, Ne.symm h])]
    · rw [show setPair (e :: rest) k i = e :: setPair rest k i by simp [setPair, he]]
      by_cases h2 : e.1 = k2
      · rw [List.find?_cons_of_pos _ (by simp [h2]), List.find?_cons_of_pos _ (by simp [h2])]
      · rw [List.find?_cons_of_neg _ (by simp [h2]), List.find?_cons_of_neg _ (by simp [h2])]
        exact ih

/-- After `setPair m k i`, looking up `k` yields `(k, i)`. -/
theorem setPair_find_self (m : List ((ℕ × ℕ) × Interaction)) (k : ℕ × ℕ) (i : Interaction) :
    (setPair m k i).find? (fun e => decide (e.1 = k)) = some (k, i) := by
  induction m with
  | nil => simp [setPair]
  | cons e rest ih =>
    by_cases he : e.1 = k
    · rw [show setPair (e :: rest) k i = (k, i) :: rest by simp [setPair, he]]
      rw [List.find?_cons_of_pos _ (by simp)]
    · rw [show setPair (e :: rest) k i = e :: setPair rest k i by simp [setPair, he]]
      rw [List.find?_cons_of_neg _ (by simp [he])]
      exact ih

/-- Membership after `setPair`: the new entry or an old one. -/
theorem mem_setPair (m : List ((ℕ × ℕ) × Interaction)) (k : ℕ × ℕ) (i : Interaction) :
    ∀ e ∈ setPair m k i, e = (k, i) ∨ e ∈ m := by
  induction m with
  | nil => simp [setPair]
  | cons e0 rest ih =>
    intro e he
    by_cases h0 : e0.1 = k
    · rw [show setPair (e0 :: rest) k i = (k, i) :: rest by simp [setPair, h0]] at he
      rcases List.mem_cons.mp he with he2 | he2
      · exact Or.inl he2
      · exact Or.inr (List.mem_cons_of_mem _ he2)
    · rw [show setPair (e0 :: rest) k i = e0 :: setPair rest k i by simp [setPair, h0]] at he
      rcases List.mem_cons.mp he with he2 | he2
      · exact Or.inr (he2 ▸ List.mem_cons_self _ _)
      · rcases ih e he2 with h3 | h3
        · exact Or.inl h3
        · exact Or.inr (List.mem_cons_of_mem _ h3)

/-- When the key is already present, `setPair` keeps the key list unchanged. -/
theorem setPair_keys_mem (m : List ((ℕ × ℕ) × Interaction)) (k : ℕ × ℕ) (i : Interaction)
    (h : k ∈ m.map Prod.fst) :
    (setPair m k i).map Prod.fst = m.map Prod.fst := by
  induction m with
  | nil => simp at h
  | cons e0 rest ih =>
    by_cases h0 : e0.1 = k
    · rw [show setPair (e0 :: rest) k i = (k, i) :: rest by simp [setPair, h0]]
      simp [h0]
    · rw [show setPair (e0 :: rest) k i = e0 :: setPair rest k i by simp [setPair, h0]]
      have h2 : k ∈ rest.map Prod.fst := by
        rcases List.mem_map.mp h with ⟨e2, he2, hk⟩
        rcases List.mem_cons.mp he2 with h3 | h3
        · exact absurd (h3 ▸ hk) h0
        · exact List.mem_map.mpr ⟨e2, h3, hk⟩
      simp [ih h2]

/-- Splitting a per-key filter across an appended singleton. -/
theorem filtKey_append_single (k : ℕ × ℕ) (done : List Interaction) (i : Interaction) :
    filtKey k (done ++ [i]) = filtKey k done ++ (if pairKey i = k then [i] else []) := by
  unfold filtKey
  rw [List.filter_append]
  by_cases hk : pairKey i = k
  · simp [hk]
  · simp [hk]

/-- One step of the fold preserves the deduplication invariant. -/
theorem dedupInv_step (done : List Interaction) (m : List ((ℕ × ℕ) × Interaction))
    (i : Interaction) (h : DedupInv done m) : DedupInv (done ++ [i]) (dedupStep m i) := by
  obtain ⟨hok, hnd, htr⟩ := h
  unfold dedupStep
  cases hf : m.find? (fun e2 => decide (e2.1 = pairKey i)) with
  | none =>
    have hknotin : pairKey i ∉ m.map Prod.fst := by
      intro hmem
      rcases List.mem_map.mp hmem with ⟨e, he, hk⟩
      have h2 := List.find?_eq_none.mp hf e he
      rw [hk] at h2
      simp at h2
    refine ⟨?_, ?_, ?_⟩
    · intro e he
      rcases List.mem_append.mp he with he2 | he2
      · exact hok e he2
      · have h3 : e = (pairKey i, i) := by simpa using he2
        rw [h3]
    · unfold keysNodup
      rw [List.map_append]
      rw [List.nodup_append]
      refine ⟨hnd, by simp, ?_⟩
      intro a ha1 ha2
      simp at ha2
      rw [ha2] at ha1
      exact hknotin ha1
    · intro k
      rw [List.find?_append]
      constructor
      · intro e hfe
        cases hmk : m.find? (fun e2 => decide (e2.1 = k)) with
        | some e0 =>
          rw [hmk] at hfe
          simp only [Option.or_some] at hfe
          obtain rfl : e0 = e := Option.some.inj hfe
          obtain ⟨pre, post, hs, h1, h2⟩ := (htr k).1 e0 hmk
          have hknei : pairKey i ≠ k := by
            intro heq
            rw [heq] at hf
            rw [hf] at hmk
            cases hmk
          refine ⟨pre, post, ?_, h1, h2⟩
          rw [filtKey_append_single, if_neg hknei, List.append_nil, hs]
        | none =>
          rw [hmk] at hfe
          simp only [Option.none_or] at hfe
          by_cases hk : pairKey i = k
          · have he : e = (pairKey i, i) := by
              rw [List.find?_cons_of_pos _ (by simp [hk])] at hfe
              exact (Option.some.inj hfe).symm
            have hd : filtKey k done = [] := (htr k).2 hmk
            refine ⟨[], [], ?_, by simp, by simp⟩
            rw [filtKey_append_single, hd, if_pos hk, he]
          · rw [List.find?_cons_of_neg _ (by simp [hk])] at hfe
            cases hfe
      · intro hfe
        cases hmk : m.find? (fun e2 => decide (e2.1 = k)) with
        | some e0 => rw [hmk] at hfe; simp at hfe
        | none =>
          rw [hmk] at hfe
          simp only [Option.none_or] at hfe
          by_cases hk : pairKey i = k
          · rw [List.find?_cons_of_pos _ (by simp [hk])] at hfe
            cases hfe
          · rw [filtKey_append_single, if_neg hk, List.append_nil]
            exact (htr k).2 hmk
  | some e0 =>
    have he0m : e0 ∈ m := List.mem_of_find?_eq_some hf
    have he0k : e0.1 = pairKey i := by
      have h2 := List.find?_some hf
      simpa using h2
    show DedupInv (done ++ [i])
      (if typeScore e0.2.type < typeScore i.type then setPair m (pairKey i) i else m)
    by_cases hsc : typeScore e0.2.type < typeScore i.type
    · rw [if_pos hsc]
      have hkeys : (setPair m (pairKey i) i).map Prod.fst = m.map Prod.fst :=
        setPair_keys_mem _ _ _ (List.mem_map.mpr ⟨e0, he0m, he0k⟩)
      refine ⟨?_, ?_, ?_⟩
      · intro e he
        rcases mem_setPair m (pairKey i) i e he with h2 | h2
        · rw [h2]
        · exact hok e h2
      · unfold keysNodup
        rw [hkeys]
        exact hnd
      · intro k
        by_cases hk : pairKey i = k
        · constructor
          · intro e hfe
            rw [← hk, setPair_find_self] at hfe
            have he : e = (pairKey i, i) := (Option.some.inj hfe).symm
            obtain ⟨pre, post, hs, h1, h2⟩ := (htr (pairKey i)).1 e0 hf
            refine ⟨pre ++ e0.2 :: post, [], ?_, ?_, by simp⟩
            · rw [filtKey_append_single, if_pos hk, ← hk, hs, he]
            · intro j hj
              rw [he]
              rcases List.mem_append.mp hj with hj2 | hj2
              · exact lt_trans (h1 j hj2) hsc
              · rcases List.mem_cons.mp hj2 with hj3 | hj3
                · rw [hj3]; exact hsc
                · exact lt_of_le_of_lt (h2 j hj3) hsc
          · intro hfe
            rw [← hk, setPair_find_self] at hfe
            cases hfe
        · constructor
          · intro e hfe
            rw [setPair_find_ne _ _ _ _ (fun h2 => hk h2.symm)] at hfe
            obtain ⟨pre, post, hs, h1, h2⟩ := (htr k).1 e hfe
            refine ⟨pre, post, ?_, h1, h2⟩
            rw [filtKey_append_single, if_neg hk, List.append_nil, hs]
          · intro hfe
            rw [setPair_find_ne _ _ _ _ (fun h2 => hk h2.symm)] at hfe
            rw [filtKey_append_single, if_neg hk, List.append_nil]
            exact (htr k).2 hfe
    · rw [if_neg hsc]
      refine ⟨hok, hnd, ?_⟩
      intro k
      by_cases hk : pairKey i = k
      · constructor
        · intro e hfe
          rw [← hk] at hfe
          rw [hf] at hfe
          have he : e = e0 := (Option.some.inj hfe).symm
          obtain ⟨pre, post, hs, h1, h2⟩ := (htr (pairKey i)).1 e0 hf
          refine ⟨pre, post ++ [i], ?_, ?_, ?_⟩
          · rw [filtKey_append_single, if_pos hk, ← hk, hs, he]
            simp
          · rw [he]; exact h1
          · rw [he]
            intro j hj
            rcases List.mem_append.mp hj with hj2 | hj2
            · exact h2 j hj2
            · have hj3 : j = i := by simpa using hj2
              rw [hj3]
              exact Nat.not_lt.mp hsc
        · intro hfe
          rw [← hk, hf] at hfe
          cases hfe
      · constructor
        · intro e hfe
          obtain ⟨pre, post, hs, h1, h2⟩ := (htr k).1 e hfe
          refine ⟨pre, post, ?_, h1, h2⟩
          rw [filtKey_append_single, if_neg hk, List.append_nil, hs]
        · intro hfe
          rw [filtKey_append_single, if_neg hk, List.append_nil]
          exact (htr k).2 hfe

/-- The fold over any raw suffix preserves the invariant. -/
theorem dedupInv_foldl (l : List Interaction) :
    ∀ (done : List Interaction) (m : List ((ℕ × ℕ) × Interaction)), DedupInv done m →
      DedupInv (done ++ l) (l.foldl dedupStep m) := by
  induction l with
  | nil => intro done m h; simpa using h
  | cons a t ih =>
    intro done m h
    have h2 := dedupInv_step done m a h
    have h3 := ih (done ++ [a]) (dedupStep m a) h2
    simpa using h3

/-- The invariant holds after folding the whole raw list from the empty map. -/
theorem dedupInv_final (l : List Interaction) : DedupInv l (l.foldl dedupStep []) := by
  have h0 : DedupInv [] [] := by
    refine ⟨(by intro e he; cases he), (by simp [keysNodup]), ?_⟩
    intro k
    constructor
    · intro e hfe
      cases hfe
    · intro _
      simp [filtKey]
  simpa using dedupInv_foldl l [] [] h0

/-- Filtering the stored values by a key isolates the entry found under it. -/
theorem mapSnd_filter (m : List ((ℕ × ℕ) × Interaction)) (hok : entriesOk m)
    (hnd : keysNodup m) (k : ℕ × ℕ) :
    filtKey k (m.map Prod.snd) =
      (match m.find? (fun e2 => decide (e2.1 = k)) with
        | some e => [e.2]
        | none => []) := by
  induction m with
  | nil => simp [filtKey]
  | cons e rest ih =>
    have hek : e.1 = pairKey e.2 := hok e (List.mem_cons_self _ _)
    have hok2 : entriesOk rest := fun e2 he2 => hok e2 (List.mem_cons_of_mem _ he2)
    have hnd2 : keysNodup rest := (List.nodup_cons.mp hnd).2
    by_cases hk : e.1 = k
    · have hrest : filtKey k (rest.map Prod.snd) = [] := by
        apply List.filter_eq_nil_iff.mpr
        intro j hj
        rcases List.mem_map.mp hj with ⟨e2, he2, hje⟩
        have hne : e2.1 ≠ k := by
          intro heq
          exact (List.nodup_cons.mp hnd).1
            (List.mem_map.mpr ⟨e2, he2, by rw [heq, ← hk]⟩)
        rw [← hje, ← hok2 e2 he2]
        simp [hne]
      rw [List.map_cons]
      unfold filtKey
      rw [List.filter_cons_of_pos (by simp [← hek, hk])]
      rw [List.find?_cons_of_pos _ (by simp [hk])]
      have hrest2 := hrest
      unfold filtKey at hrest2
      rw [hrest2]
    · rw [List.map_cons]
      unfold filtKey
      rw [List.filter_cons_of_neg (by simp [← hek, hk])]
      rw [List.find?_cons_of_neg _ (by simp [hk])]
      have := ih hok2 hnd2
      unfold filtKey at this
      exact this

/-- The central characterization of deduplication: for every atom-pair key,
either there is no raw candidate and no output, or the output holds exactly
one interaction for the key — the first raw candidate of maximal priority. -/
theorem dedup_filter_char (l : List Interaction) (k : ℕ × ℕ) :
    (filtKey k l = [] ∧ filtKey k (dedupInteractions l) = []) ∨
      (∃ i pre post, filtKey k (dedupInteractions l) = [i] ∧
        filtKey k l = pre ++ i :: post ∧
        (∀ j ∈ pre, typeScore j.type < typeScore i.type) ∧
        (∀ j ∈ post, typeScore j.type ≤ typeScore i.type)) := by
  obtain ⟨hok, hnd, htr⟩ := dedupInv_final l
  unfold dedupInteractions
  cases hf : (l.foldl dedupStep []).find? (fun e2 => decide (e2.1 = k)) with
  | none =>
    left
    refine ⟨(htr k).2 hf, ?_⟩
    rw [mapSnd_filter _ hok hnd k, hf]
  | some e =>
    right
    obtain ⟨pre, post, hs, h1, h2⟩ := (htr k).1 e hf
    exact ⟨e.2, pre, post, by rw [mapSnd_filter _ hok hnd k, hf], hs, h1, h2⟩

/-- With pairwise-distinct keys, an entry is found under its own key. -/
theorem find_self_of_nodup (m : List ((ℕ × ℕ) × Interaction)) (hnd : keysNodup m) :
    ∀ e ∈ m, m.find? (fun e2 => decide (e2.1 = e.1)) = some e := by
  induction m with
  | nil => intro e he; cases he
  | cons e0 rest ih =>
    intro e he
    rcases List.mem_cons.mp he with he2 | he2
    · rw [he2, List.find?_cons_of_pos _ (by simp)]
    · have hne : e0.1 ≠ e.1 := by
        intro heq
        exact (List.nodup_cons.mp hnd).1 (List.mem_map.mpr ⟨e, he2, heq.symm⟩)
      rw [List.find?_cons_of_neg _ (by simp [hne])]
      exact ih (List.nodup_cons.mp hnd).2 e he2

/-- Every surviving interaction is one of the raw candidates. -/
theorem dedup_sub (l : List Interaction) : ∀ i ∈ dedupInteractions l, i ∈ l := by
  intro i hi
  obtain ⟨hok, hnd, htr⟩ := dedupInv_final l
  unfold dedupInteractions at hi
  rcases List.mem_map.mp hi with ⟨e, he, hei⟩
  have hf := find_self_of_nodup _ hnd e he
  obtain ⟨pre, post, hs, _, _⟩ := (htr e.1).1 e hf
  have hmem : e.2 ∈ filtKey e.1 l := by
    rw [hs]
    exact List.mem_append.mpr (Or.inr (List.mem_cons_self _ _))
  rw [← hei]
  exact List.mem_of_mem_filter hmem

/-- The surviving interactions have pairwise distinct (ordered) atom-pair
keys. -/
theorem dedup_pairwise (l : List Interaction) :
    (dedupInteractions l).Pairwise fun a b => pairKey a ≠ pairKey b := by
  obtain ⟨hok, hnd, _⟩ := dedupInv_final l
  unfold dedupInteractions
  unfold keysNodup List.Nodup at hnd
  rw [List.pairwise_map] at hnd ⊢
  refine List.Pairwise.imp_of_mem ?_ hnd
  intro a b ha hb hne
  rw [← hok a ha, ← hok b hb]
  exact hne

/-- `ringPush` preserves the ring-state invariant. -/
theorem ringPush_ok (n : ℕ) (st : RingState) (path : List ℕ)
    (h : RingsOk n st) (hp : pathOk n path) : RingsOk n (ringPush st path) := by
  obtain ⟨h1, h2, h3⟩ := h
  unfold ringPush
  by_cases hk : path.insertionSort (· ≤ ·) ∈ st.keys
  · rw [if_pos hk]
    exact ⟨h1, h2, h3⟩
  · rw [if_neg hk]
    refine ⟨?_, ?_, ?_⟩
    · intro r hr
      rcases List.mem_append.mp hr with hr2 | hr2
      · exact h1 r hr2
      · have : r = path := by simpa using hr2
        rw [this]
        exact hp
    · intro r hr
      rcases List.mem_append.mp hr with hr2 | hr2
      · exact List.mem_append.mpr (Or.inl (h2 r hr2))
      · have : r = path := by simpa using hr2
        rw [this]
        exact List.mem_append.mpr (Or.inr (by simp [sortKey]))
    · rw [List.map_append]
      rw [List.nodup_append]
      refine ⟨h3, by simp, ?_⟩
      intro a ha1 ha2
      simp [sortKey] at ha2
      rcases List.mem_map.mp ha1 with ⟨r, hr, hkey⟩
      rw [ha2] at hkey
      exact hk (hkey ▸ h2 r hr)

/-- The bounded DFS preserves the ring-state invariant for every simple
in-range path. -/
theorem ringDfs_ok (n : ℕ) (adjL : List (List ℕ))
    (hadj : ∀ c, ∀ j ∈ adjL.getD c [], j < n) (start : ℕ) :
    ∀ (fuel cur : ℕ) (path : List ℕ) (st : RingState), path.Nodup →
      (∀ idx ∈ path, idx < n) → RingsOk n st →
      RingsOk n (ringDfs adjL start fuel cur path st) := by
  intro fuel
  induction fuel with
  | zero =>
    intro cur path st _ _ h
    exact h
  | succ f ih =>
    intro cur path st hnd hlt h
    unfold ringDfs
    by_cases h6 : 6 < path.length
    · rw [if_pos h6]
      exact h
    · rw [if_neg h6]
      by_cases h5 : 5 ≤ path.length ∧ start ∈ adjL.getD cur []
      · rw [if_pos h5]
        exact ringPush_ok n st path h ⟨by omega, hnd, hlt⟩
      · rw [if_neg h5]
        have haux : ∀ (l : List ℕ), (∀ j ∈ l, j < n) → ∀ st2, RingsOk n st2 →
            RingsOk n (l.foldl (fun s nb =>
              if nb ∈ path then s else ringDfs adjL start f nb (path ++ [nb]) s) st2) := by
          intro l
          induction l with
          | nil =>
            intro _ st2 h2
            exact h2
          | cons nb t iht =>
            intro hl st2 h2
            rw [List.foldl_cons]
            apply iht fun j hj => hl j (List.mem_cons_of_mem _ hj)
            by_cases hin : nb ∈ path
            · rw [if_pos hin]
              exact h2
            · rw [if_neg hin]
              apply ih nb (path ++ [nb]) st2 ?_ ?_ h2
              · rw [List.nodup_append]
                refine ⟨hnd, by simp, ?_⟩
                intro a ha1 ha2
                simp at ha2
                rw [ha2] at ha1
                exact hin ha1
              · intro idx hidx
                rcases List.mem_append.mp hidx with h3 | h3
                · exact hlt idx h3
                · have : idx = nb := by simpa using h3
                  rw [this]
                  exact hl nb (List.mem_cons_self _ _)
        exact haux _ (fun j hj => hadj cur j hj) st h

/-- Adjacency-list entries are in-range positions. -/
theorem buildAdj_lt (atoms : List AtomData) :
    ∀ c, ∀ j ∈ (buildAdj atoms).getD c [], j < atoms.length := by
  intro c j hj
  unfold buildAdj at hj
  by_cases hc : c < atoms.length
  · rw [List.getD_eq_getElem _ _ (by simpa using hc)] at hj
    rw [List.getElem_map] at hj
    have hmem := List.mem_of_mem_filter hj
    exact List.mem_range.mp hmem
  · rw [List.getD_eq_default _ _ (by simpa using Nat.le_of_not_lt hc)] at hj
    cases hj

/-- The complete DFS sweep establishes the ring-state invariant. -/
theorem ringSearch_ok (atoms : List AtomData) :
    RingsOk atoms.length (ringSearch atoms) := by
  unfold ringSearch
  have haux : ∀ (l : List ℕ), (∀ i ∈ l, i < atoms.length) → ∀ st, RingsOk atoms.length st →
      RingsOk atoms.length (l.foldl (fun s i =>
        if (atoms.getD i dAtom).element ∈ ["C", "N"] then
          ringDfs (buildAdj atoms) i 7 i [i] s
        else s) st) := by
    intro l
    induction l with
    | nil =>
      intro _ st h
      exact h
    | cons i t iht =>
      intro hl st h
      rw [List.foldl_cons]
      apply iht fun j hj => hl j (List.mem_cons_of_mem _ hj)
      by_cases hel : (atoms.getD i dAtom).element ∈ ["C", "N"]
      · rw [if_pos hel]
        apply ringDfs_ok atoms.length (buildAdj atoms) (buildAdj_lt atoms) i 7 i [i] st
          (by simp) ?_ h
        intro idx hidx
        have : idx = i := by simpa using hidx
        rw [this]
        exact hl i (List.mem_cons_self _ _)
      · rw [if_neg hel]
        exact h
  apply haux
  · intro i hi
    exact List.mem_range.mp hi
  · exact ⟨(by intro r hr; cases hr), (by intro r hr; cases hr), (by simp)⟩

/-- Every perceived ring arises from a well-formed accepted path. -/
theorem findLigandRings_paths (atoms : List AtomData) :
    ∀ r ∈ findLigandRings atoms, ∃ p, p ∈ (ringSearch atoms).rings ∧
      pathOk atoms.length p ∧ r = p.map fun idx => atoms.getD idx dAtom := by
  intro r hr
  unfold findLigandRings at hr
  by_cases h0 : atoms.length = 0
  · rw [if_pos h0] at hr
    cases hr
  · rw [if_neg h0] at hr
    rcases List.mem_map.mp hr with ⟨p, hp, hmap⟩
    exact ⟨p, hp, (ringSearch_ok atoms).1 p hp, hmap.symm⟩

/-- With pairwise-distinct atom indices, the atom stored at a position
determines the position. -/
theorem getD_index_inj (atoms : List AtomData) (h : (atoms.map AtomData.index).Nodup) :
    ∀ a b, a < atoms.length → b < atoms.length →
      (atoms.getD a dAtom).index = (atoms.getD b dAtom).index → a = b := by
  intro a b ha hb heq
  rw [List.getD_eq_getElem _ _ ha, List.getD_eq_getElem _ _ hb] at heq
  have hinj := List.nodup_iff_injective_get.mp h
  have h2 : (atoms.map AtomData.index).get ⟨a, by simpa using ha⟩ =
      (atoms.map AtomData.index).get ⟨b, by simpa using hb⟩ := by
    simp only [List.get_eq_getElem, List.getElem_map]
    exact heq
  have h3 := hinj h2
  simpa using congrArg Fin.val h3

/-- Two simple paths with different sorted keys have different position
sets. -/
theorem path_toFinset_ne (p1 p2 : List ℕ) (h1 : p1.Nodup) (h2 : p2.Nodup)
    (hne : sortKey p1 ≠ sortKey p2) : p1.toFinset ≠ p2.toFinset := by
  intro heq
  apply hne
  unfold sortKey
  have e3 : p1.Perm p2 := List.perm_of_nodup_nodup_toFinset_eq h1 h2 heq
  exact List.eq_of_perm_of_sorted
    ((List.perm_insertionSort _ p1).trans (e3.trans (List.perm_insertionSort _ p2).symm))
    (List.sorted_insertionSort _ _) (List.sorted_insertionSort _ _)

/-- An injective-on-range map reflects position-set equality. -/
theorem map_toFinset_eq (n : ℕ) (g : ℕ → ℕ)
    (hinj : ∀ a b, a < n → b < n → g a = g b → a = b) (p1 p2 : List ℕ)
    (hlt1 : ∀ i ∈ p1, i < n) (hlt2 : ∀ i ∈ p2, i < n)
    (h : (p1.map g).toFinset = (p2.map g).toFinset) : p1.toFinset = p2.toFinset := by
  have haux : ∀ (q1 q2 : List ℕ), (∀ i ∈ q1, i < n) → (∀ i ∈ q2, i < n) →
      (q1.map g).toFinset = (q2.map g).toFinset → ∀ a ∈ q1, a ∈ q2 := by
    intro q1 q2 hq1 hq2 hset a ha
    have h2 : g a ∈ (q2.map g).toFinset := by
      rw [← hset]
      exact List.mem_toFinset.mpr (List.mem_map.mpr ⟨a, ha, rfl⟩)
    rcases List.mem_map.mp (List.mem_toFinset.mp h2) with ⟨b, hb, hgb⟩
    have hab : a = b := hinj a b (hq1 a ha) (hq2 b hb) hgb.symm
    rw [hab]
    exact hb
  apply Finset.ext
  intro a
  simp only [List.mem_toFinset]
  exact ⟨fun ha => haux p1 p2 hlt1 hlt2 h a ha, fun ha => haux p2 p1 hlt2 hlt1 h.symm a ha⟩

/-- C6: ring perception returns only rings of exactly 5 or 6 atoms, and never
two rings with the same set of atom indices (stated via the `toFinset` of the
index lists, which for the pairwise-distinct indices guaranteed by the atom
data model is the same as comparing the sorted index lists). -/
theorem claim6_ring_sizes_distinct (atoms : List AtomData)
    (h : (atoms.map AtomData.index).Nodup) :
    (∀ r ∈ findLigandRings atoms, r.length = 5 ∨ r.length = 6) ∧
      (findLigandRings atoms).Pairwise
        (fun r1 r2 => (r1.map AtomData.index).toFinset ≠ (r2.map AtomData.index).toFinset) := by
  constructor
  · intro r hr
    obtain ⟨p, _, ⟨hlen, _, _⟩, hmap⟩ := findLigandRings_paths atoms r hr
    rw [hmap, List.length_map]
    exact hlen
  · unfold findLigandRings
    by_cases h0 : atoms.length = 0
    · rw [if_pos h0]
      exact List.Pairwise.nil
    · rw [if_neg h0]
      rw [List.pairwise_map]
      obtain ⟨hall, hkeys, hnodup⟩ := ringSearch_ok atoms
      have hpw : (ringSearch atoms).rings.Pairwise fun p1 p2 => sortKey p1 ≠ sortKey p2 := by
        unfold List.Nodup at hnodup
        rwa [List.pairwise_map] at hnodup
      refine List.Pairwise.imp_of_mem ?_ hpw
      intro p1 p2 hp1 hp2 hne
      rw [List.map_map, List.map_map]
      intro heq
      obtain ⟨_, hnd1, hlt1⟩ := hall p1 hp1
      obtain ⟨_, hnd2, hlt2⟩ := hall p2 hp2
      apply path_toFinset_ne p1 p2 hnd1 hnd2 hne
      exact map_toFinset_eq atoms.length (fun idx => (atoms.getD idx dAtom).index)
        (getD_index_inj atoms h) p1 p2 hlt1 hlt2 heq

/-- Witness for C6 on the hexagonal ligand: its single perceived ring has six
atoms and the pairwise-distinctness condition holds. -/
theorem claim6_witness :
    (hexAtoms.map AtomData.index).Nodup ∧
      ((∀ r ∈ findLigandRings hexAtoms, r.length = 5 ∨ r.length = 6) ∧
        (findLigandRings hexAtoms).Pairwise
          (fun r1 r2 =>
            (r1.map AtomData.index).toFinset ≠ (r2.map AtomData.index).toFinset)) :=
  ⟨by decide, claim6_ring_sizes_distinct hexAtoms (by decide)⟩

/-! Candidate provenance: every raw candidate pairs a ligand atom with a
filtered protein atom, and the candidates of the per-atom-pair pass store the
squared distance of exactly those two atoms. -/

/-- The head (with default) of a nonempty list is a member. -/
theorem headD_mem {α : Type} (l : List α) (d : α) (h : l ≠ []) : l.headD d ∈ l := by
  cases l with
  | nil => exact absurd rfl h
  | cons a t => simp

/-- Membership in a conditional singleton. -/
theorem mem_ite_singleton {c : Prop} [Decidable c] {x y : Cand}
    (h : x ∈ if c then [y] else []) : x = y ∧ c := by
  by_cases hc : c
  · rw [if_pos hc] at h
    exact ⟨by simpa using h, hc⟩
  · rw [if_neg hc] at h
    cases h

/-- `addToGroups` preserves a per-atom predicate over all buckets. -/
theorem addToGroups_pred (C : AtomData → Prop) (gs : List ((String × ℤ) × List AtomData))
    (a : AtomData) (hgs : ∀ g ∈ gs, ∀ b ∈ g.2, C b) (ha : C a) :
    ∀ g ∈ addToGroups gs a, ∀ b ∈ g.2, C b := by
  unfold addToGroups
  by_cases h : gs.any fun g => decide (g.1 = groupKey a)
  · rw [if_pos h]
    intro g hg b hb
    rcases List.mem_map.mp hg with ⟨g0, hg0, heq⟩
    by_cases h2 : g0.1 = groupKey a
    · rw [if_pos h2] at heq
      rw [← heq] at hb
      rcases List.mem_append.mp hb with hb2 | hb2
      · exact hgs g0 hg0 b hb2
      · have : b = a := by simpa using hb2
        rw [this]
        exact ha
    · rw [if_neg h2] at heq
      exact hgs g0 hg0 b (heq ▸ hb)
  · rw [if_neg h]
    intro g hg b hb
    rcases List.mem_append.mp hg with hg2 | hg2
    · exact hgs g hg2 b hb
    · have hgk : g = (groupKey a, [a]) := by simpa using hg2
      rw [hgk] at hb
      have : b = a := by simpa using hb
      rw [this]
      exact ha

/-- Atoms in any residue bucket come from the grouped list. -/
theorem groupByRes_pred (C : AtomData → Prop) (l : List AtomData) (hl : ∀ a ∈ l, C a) :
    ∀ g ∈ groupByRes l, ∀ a ∈ g, C a := by
  have haux : ∀ (t : List AtomData) (gs : List ((String × ℤ) × List AtomData)),
      (∀ g ∈ gs, ∀ b ∈ g.2, C b) → (∀ a ∈ t, C a) →
      ∀ g ∈ t.foldl addToGroups gs, ∀ b ∈ g.2, C b := by
    intro t
    induction t with
    | nil =>
      intro gs hgs _
      exact hgs
    | cons a t2 ih =>
      intro gs hgs ht
      rw [List.foldl_cons]
      exact ih (addToGroups gs a)
        (addToGroups_pred C gs a hgs (ht a (List.mem_cons_self _ _)))
        fun b hb => ht b (List.mem_cons_of_mem _ hb)
  intro g hg a ha
  unfold groupByRes at hg
  rcases List.mem_map.mp hg with ⟨gp, hgp, heq⟩
  exact haux l [] (by intro g2 hg2; cases hg2) hl gp hgp a (heq ▸ ha)

/-- Every perceived ring is a nonempty list of atoms of the input list. -/
theorem findLigandRings_sub (atoms : List AtomData) :
    ∀ r ∈ findLigandRings atoms, r ≠ [] ∧ ∀ a ∈ r, a ∈ atoms := by
  intro r hr
  obtain ⟨p, _, ⟨hlen, _, hlt⟩, hmap⟩ := findLigandRings_paths atoms r hr
  constructor
  · intro hnil
    rw [hnil] at hmap
    have : p.length = 0 := by
      have := congrArg List.length hmap
      simpa using this.symm
    omega
  · intro a ha
    rw [hmap] at ha
    rcases List.mem_map.mp ha with ⟨idx, hidx, hget⟩
    rw [← hget, List.getD_eq_getElem _ _ (hlt idx hidx)]
    exact List.getElem_mem _

/-- Every precomputed ring datum has nonempty atoms drawn from the ligand. -/
theorem ringInfosOf_sub (ligAtoms : List AtomData) :
    ∀ lR ∈ ringInfosOf ligAtoms, lR.ringAtoms ≠ [] ∧ ∀ a ∈ lR.ringAtoms, a ∈ ligAtoms := by
  intro lR hlR
  unfold ringInfosOf at hlR
  rcases List.mem_map.mp hlR with ⟨r, hr, heq⟩
  have h2 := findLigandRings_sub ligAtoms r hr
  rw [← heq]
  exact h2

/-- Provenance and type classification of the per-residue candidates. -/
theorem resCands_spec (ligAtoms : List AtomData) (ringInfos : List RingInfo)
    (resAtoms : List AtomData)
    (hinfos : ∀ lR ∈ ringInfos, lR.ringAtoms ≠ [] ∧ ∀ a ∈ lR.ringAtoms, a ∈ ligAtoms) :
    ∀ c ∈ resCands ligAtoms ringInfos resAtoms,
      c.ligandAtom ∈ ligAtoms ∧ c.proteinAtom ∈ resAtoms ∧
        (c.type = .piStacking ∨ c.type = .saltBridge) := by
  intro c hc
  simp only [resCands] at hc
  rcases List.mem_append.mp hc with hc12 | hc3
  · rcases List.mem_append.mp hc12 with hc1 | hc2
    · -- aromatic part
      cases harom : AROMATIC_PLANES ((resAtoms.headD dAtom).resName) with
      | none =>
        simp only [harom] at hc1
        cases hc1
      | some aromDef =>
        simp only [harom] at hc1
        by_cases h3 : 3 ≤ (resAtoms.filter fun a => aromDef.contains a.name).length
        · rw [if_pos h3] at hc1
          have hra : (resAtoms.filter fun a => aromDef.contains a.name) ≠ [] := by
            intro hnil
            rw [hnil] at h3
            simp at h3
          have hrahead : (resAtoms.filter fun a => aromDef.contains a.name).headD dAtom ∈
              resAtoms :=
            List.mem_of_mem_filter (headD_mem _ _ hra)
          rcases List.mem_append.mp hc1 with hpi | hpic
          · rcases List.mem_flatMap.mp hpi with ⟨lR, hlR, hcm⟩
            obtain ⟨hceq, _⟩ := mem_ite_singleton hcm
            rw [hceq]
            refine ⟨?_, hrahead, Or.inl rfl⟩
            have h4 := hinfos lR hlR
            exact h4.2 _ (headD_mem _ _ h4.1)
          · rcases List.mem_flatMap.mp hpic with ⟨l, hl, hcm⟩
            obtain ⟨hceq, _⟩ := mem_ite_singleton hcm
            rw [hceq]
            exact ⟨hl, hrahead, Or.inl rfl⟩
        · rw [if_neg h3] at hc1
          cases hc1
    · -- positive-charge part
      cases hpos : POS_CHARGE_ATOMS ((resAtoms.headD dAtom).resName) with
      | none =>
        simp only [hpos] at hc2
        cases hc2
      | some posDef =>
        simp only [hpos] at hc2
        by_cases h0 : 0 < (resAtoms.filter fun a => posDef.contains a.name).length
        · rw [if_pos h0] at hc2
          have hpa : (resAtoms.filter fun a => posDef.contains a.name) ≠ [] := by
            intro hnil
            rw [hnil] at h0
            simp at h0
          have hpahead : (resAtoms.filter fun a => posDef.contains a.name).headD dAtom ∈
              resAtoms :=
            List.mem_of_mem_filter (headD_mem _ _ hpa)
          rcases List.mem_append.mp hc2 with hcp | hsb
          · rcases List.mem_flatMap.mp hcp with ⟨lR, hlR, hcm⟩
            obtain ⟨hceq, _⟩ := mem_ite_singleton hcm
            rw [hceq]
            refine ⟨?_, hpahead, Or.inl rfl⟩
            have h4 := hinfos lR hlR
            exact h4.2 _ (headD_mem _ _ h4.1)
          · rcases List.mem_flatMap.mp hsb with ⟨l, hl, hcm⟩
            obtain ⟨hceq, _⟩ := mem_ite_singleton hcm
            rw [hceq]
            exact ⟨hl, hpahead, Or.inr rfl⟩
        · rw [if_neg h0] at hc2
          cases hc2
  · -- negative-charge part
    cases hneg : NEG_CHARGE_ATOMS ((resAtoms.headD dAtom).resName) with
    | none =>
      simp only [hneg] at hc3
      cases hc3
    | some negDef =>
      simp only [hneg] at hc3
      by_cases h0 : 0 < (resAtoms.filter fun a => negDef.contains a.name).length
      · rw [if_pos h0] at hc3
        have hna : (resAtoms.filter fun a => negDef.contains a.name) ≠ [] := by
          intro hnil
          rw [hnil] at h0
          simp at h0
        rcases List.mem_flatMap.mp hc3 with ⟨l, hl, hcm⟩
        obtain ⟨hceq, _⟩ := mem_ite_singleton hcm
        rw [hceq]
        exact ⟨hl, List.mem_of_mem_filter (headD_mem _ _ hna), Or.inr rfl⟩
      · rw [if_neg h0] at hc3
        cases hc3

/-- The per-atom-pair candidates pair exactly the two given atoms and store
their squared distance. -/
theorem pairCands_spec (l p : AtomData) :
    ∀ c ∈ pairCands l p,
      c.ligandAtom = l ∧ c.proteinAtom = p ∧ c.distanceSq = distanceSq l.pos p.pos := by
  intro c hc
  simp only [pairCands] at hc
  by_cases hskip : sq (max hbondDist hydrophobicDist) < distanceSq l.pos p.pos
  · rw [if_pos hskip] at hc
    cases hc
  · rw [if_neg hskip] at hc
    rcases List.mem_append.mp hc with hc1 | hc2
    rotate_left
    · obtain ⟨hceq, _⟩ := mem_ite_singleton hc2
      rw [hceq]
      exact ⟨rfl, rfl, rfl⟩
    rcases List.mem_append.mp hc1 with hc3 | hc4
    rotate_left
    · obtain ⟨hceq, _⟩ := mem_ite_singleton hc4
      rw [hceq]
      exact ⟨rfl, rfl, rfl⟩
    rcases List.mem_append.mp hc3 with hc5 | hc6
    · obtain ⟨hceq, _⟩ := mem_ite_singleton hc5
      rw [hceq]
      exact ⟨rfl, rfl, rfl⟩
    · obtain ⟨hceq, _⟩ := mem_ite_singleton hc6
      rw [hceq]
      exact ⟨rfl, rfl, rfl⟩

/-- Provenance of every raw candidate. -/
theorem candList_spec (ligAtoms relevant : List AtomData) :
    ∀ c ∈ candList ligAtoms relevant,
      (c.ligandAtom ∈ ligAtoms ∧ c.proteinAtom ∈ relevant) ∧
        (c.type = .piStacking ∨ c.type = .saltBridge ∨
          c.distanceSq = distanceSq c.ligandAtom.pos c.proteinAtom.pos) := by
  intro c hc
  unfold candList at hc
  rcases List.mem_append.mp hc with hres | hpair
  · rcases List.mem_flatMap.mp hres with ⟨g, hg, hcg⟩
    have hspec := resCands_spec ligAtoms (ringInfosOf ligAtoms) g
      (ringInfosOf_sub ligAtoms) c hcg
    have hgsub : ∀ a ∈ g, a ∈ relevant :=
      groupByRes_pred (fun a => a ∈ relevant) relevant (fun a ha => ha) g hg
    refine ⟨⟨hspec.1, hgsub _ hspec.2.1⟩, ?_⟩
    rcases hspec.2.2 with h | h
    · exact Or.inl h
    · exact Or.inr (Or.inl h)
  · rcases List.mem_flatMap.mp hpair with ⟨l, hl, hcl⟩
    rcases List.mem_flatMap.mp hcl with ⟨p, hp, hcp⟩
    obtain ⟨h1, h2, h3⟩ := pairCands_spec l p c hcp
    exact ⟨⟨h1 ▸ hl, h2 ▸ hp⟩, Or.inr (Or.inr (by rw [h1, h2, h3]))⟩

/-- Provenance of every raw interaction record. -/
theorem rawInteractions_spec (ligAtoms relevant : List AtomData) :
    ∀ i ∈ rawInteractions ligAtoms relevant,
      (i.ligandAtom ∈ ligAtoms ∧ i.proteinAtom ∈ relevant) ∧
        (i.type = .piStacking ∨ i.type = .saltBridge ∨
          i.distanceSq = distanceSq i.ligandAtom.pos i.proteinAtom.pos) := by
  intro i hi
  unfold rawInteractions at hi
  rcases List.mem_map.mp hi with ⟨nc, hnc, hmk⟩
  have h2 : nc.2 ∈ candList ligAtoms relevant := by
    rw [← List.enum_map_snd (candList ligAtoms relevant)]
    exact List.mem_map.mpr ⟨nc, hnc, rfl⟩
  have h3 := candList_spec ligAtoms relevant nc.2 h2
  rw [← hmk]
  exact h3

/-- C2: the deduplicated output never contains two interactions for the same
unordered (ligand atom index, protein atom index) pair; the atom-index
uniqueness required by the data model enters as the `Nodup` hypothesis. -/
theorem claim2_unordered_unique (s : Structure) (sel : ResidueOption)
    (h : (s.atoms.map AtomData.index).Nodup) :
    (analyzeInteractions s sel).interactions.Pairwise
      fun i j => ¬ unordEq (pairKey i) (pairKey j) := by
  unfold analyzeInteractions
  by_cases he : (ligandAtomsOf s sel).isEmpty
  · rw [if_pos he]
    exact List.Pairwise.nil
  · rw [if_neg he]
    show (dedupInteractions (rawInteractionsOf s sel)).Pairwise
      fun i j => ¬ unordEq (pairKey i) (pairKey j)
    have hdisj : ∀ la ∈ ligandAtomsOf s sel, ∀ pa ∈ proteinAtomsOf s sel,
        la.index ≠ pa.index := by
      intro la hla pa hpa heq
      have hla2 := List.mem_filter.mp hla
      have hpa2 := List.mem_filter.mp hpa
      have hne : la ≠ pa := by
        intro hep
        have hp1 : decide (isLigandAtom sel la) = true := hla2.2
        have hp2 := hpa2.2
        rw [← hep] at hp2
        simp only [Bool.and_eq_true, decide_eq_true_eq] at hp1 hp2
        exact hp2.1 hp1
      exact hne (List.inj_on_of_nodup_map h hla2.1 hpa2.1 heq)
    have hpw := dedup_pairwise (rawInteractionsOf s sel)
    refine List.Pairwise.imp_of_mem ?_ hpw
    intro a b ha hb hne hu
    have ha2 := rawInteractions_spec _ _ a (dedup_sub _ a ha)
    have hb2 := rawInteractions_spec _ _ b (dedup_sub _ b hb)
    rcases hu with hu | hu
    · exact hne hu
    · exact hdisj a.ligandAtom ha2.1.1 b.proteinAtom
        (List.mem_of_mem_filter hb2.1.2) hu.1

/-- Witness for C2 on `hbS` (one hydrogen bond in the output). -/
theorem claim2_witness :
    (hbS.atoms.map AtomData.index).Nodup ∧
      (analyzeInteractions hbS hbSel).interactions.Pairwise
        (fun i j => ¬ unordEq (pairKey i) (pairKey j)) :=
  ⟨by decide, claim2_unordered_unique hbS hbSel (by decide)⟩

/-- A ligand-free residue pass yields no candidates. -/
theorem resCands_nil (resAtoms : List AtomData) : resCands [] [] resAtoms = [] := by
  simp only [resCands]
  cases harom : AROMATIC_PLANES ((resAtoms.headD dAtom).resName) <;>
    cases hpos : POS_CHARGE_ATOMS ((resAtoms.headD dAtom).resName) <;>
      cases hneg : NEG_CHARGE_ATOMS ((resAtoms.headD dAtom).resName) <;>
        simp

/-- The raw candidate list of a ligand-free analysis is empty. -/
theorem rawInteractions_nil (relevant : List AtomData) :
    rawInteractions [] relevant = [] := by
  have hinfo : ringInfosOf ([] : List AtomData) = [] := by
    simp [ringInfosOf, findLigandRings]
  have hcand : candList [] relevant = [] := by
    unfold candList
    rw [hinfo]
    have haux : ∀ gs : List (List AtomData), gs.flatMap (resCands [] []) = [] := by
      intro gs
      induction gs with
      | nil => rfl
      | cons g t ih =>
        rw [List.flatMap_cons, resCands_nil, ih]
        rfl
    rw [haux]
    rfl
  unfold rawInteractions
  rw [hcand]
  rfl

/-- C3: whenever at least one raw candidate exists for an atom-pair key,
exactly one interaction survives for that key, it is one of the key's raw
candidates, and its type priority (`SaltBridge(4) > PiStacking(3) >
HydrogenBond(2) > others(1)`) is maximal among them. -/
theorem claim3_priority_max (s : Structure) (sel : ResidueOption) (k : ℕ × ℕ)
    (h : filtKey k (rawInteractionsOf s sel) ≠ []) :
    ∃ i, filtKey k (analyzeInteractions s sel).interactions = [i] ∧
      i ∈ filtKey k (rawInteractionsOf s sel) ∧
      ∀ j ∈ filtKey k (rawInteractionsOf s sel), typeScore j.type ≤ typeScore i.type := by
  by_cases he : (ligandAtomsOf s sel).isEmpty
  · exfalso
    apply h
    have hlig : ligandAtomsOf s sel = [] := by simpa using he
    unfold rawInteractionsOf
    rw [hlig, rawInteractions_nil]
    rfl
  · have hout : (analyzeInteractions s sel).interactions =
        dedupInteractions (rawInteractionsOf s sel) := by
      unfold analyzeInteractions
      rw [if_neg he]
    rcases dedup_filter_char (rawInteractionsOf s sel) k with ⟨h1, _⟩ | hchar
    · exact absurd h1 h
    · obtain ⟨i, pre, post, hdd, hsplit, h1, h2⟩ := hchar
      refine ⟨i, by rw [hout]; exact hdd, ?_, ?_⟩
      · rw [hsplit]
        exact List.mem_append.mpr (Or.inr (List.mem_cons_self _ _))
      · intro j hj
        rw [hsplit] at hj
        rcases List.mem_append.mp hj with hj2 | hj2
        · exact Nat.le_of_lt (h1 j hj2)
        · rcases List.mem_cons.mp hj2 with hj3 | hj3
          · rw [hj3]
          · exact h2 j hj3

/-- C9: every surviving interaction is the first raw candidate of its atom
pair whose priority is maximal — every earlier candidate for the same pair
scores strictly lower (equal-priority later candidates never replace it). -/
theorem claim9_first_of_equal (s : Structure) (sel : ResidueOption) (i : Interaction)
    (h : i ∈ (analyzeInteractions s sel).interactions) :
    ∃ pre post, filtKey (pairKey i) (rawInteractionsOf s sel) = pre ++ i :: post ∧
      (∀ j ∈ pre, typeScore j.type < typeScore i.type) ∧
      (∀ j ∈ post, typeScore j.type ≤ typeScore i.type) := by
  by_cases he : (ligandAtomsOf s sel).isEmpty
  · exfalso
    unfold analyzeInteractions at h
    rw [if_pos he] at h
    cases h
  · have hout : (analyzeInteractions s sel).interactions =
        dedupInteractions (rawInteractionsOf s sel) := by
      unfold analyzeInteractions
      rw [if_neg he]
    rw [hout] at h
    have hmem : i ∈ filtKey (pairKey i) (dedupInteractions (rawInteractionsOf s sel)) :=
      List.mem_filter.mpr ⟨h, by simp⟩
    rcases dedup_filter_char (rawInteractionsOf s sel) (pairKey i) with ⟨_, h2⟩ | hchar
    · rw [h2] at hmem
      cases hmem
    · obtain ⟨i0, pre, post, hdd, hsplit, h1, h2⟩ := hchar
      have hii : i = i0 := by
        rw [hdd] at hmem
        simpa using hmem
      subst hii
      exact ⟨pre, post, hsplit, h1, h2⟩

/-- C5 (amended): every surviving interaction of an atom-pair type
(hydrogen bond, halogen bond, hydrophobic, metal coordination) stores exactly
the squared distance between its stored ligand and protein atoms — for these
types the stored distance is the acceptance distance between the stored
representative points.  (The ring/charge-center types measure to centroids
instead; see the counterexample.) -/
theorem claim5_atom_pair_distance (s : Structure) (sel : ResidueOption) (i : Interaction)
    (h : i ∈ (analyzeInteractions s sel).interactions)
    (ht : i.type = .hydrogenBond ∨ i.type = .halogenBond ∨ i.type = .hydrophobic ∨
      i.type = .metalCoordination) :
    i.distanceSq = distanceSq i.ligandAtom.pos i.proteinAtom.pos := by
  by_cases he : (ligandAtomsOf s sel).isEmpty
  · exfalso
    unfold analyzeInteractions at h
    rw [if_pos he] at h
    cases h
  · have hout : (analyzeInteractions s sel).interactions =
        dedupInteractions (rawInteractionsOf s sel) := by
      unfold analyzeInteractions
      rw [if_neg he]
    rw [hout] at h
    have hraw := dedup_sub _ i h
    unfold rawInteractionsOf at hraw
    have hspec := rawInteractions_spec _ _ i hraw
    rcases hspec.2 with htype | htype | hdist
    · rcases ht with h2 | h2 | h2 | h2 <;> rw [h2] at htype <;> cases htype
    · rcases ht with h2 | h2 | h2 | h2 <;> rw [h2] at htype <;> cases htype
    · exact hdist

/-- Witness for the amended C1 on `hbS`, whose only protein atom is 3 Å from
the ligand centroid. -/
theorem claim1_witness :
    (∀ a ∈ proteinAtomsOf hbS hbSel,
      distanceSq a.pos (ligandCenterOf hbS hbSel) < sq coarseRadius) ∧
      analyzeInteractions hbS hbSel = analyzeInteractionsUnfiltered hbS hbSel :=
  ⟨by
    norm_num [proteinAtomsOf, ligandAtomsOf, ligandCenterOf, isLigandAtom, getCenter,
      distanceSq, AtomData.pos, add, sq, coarseRadius, hbS, hbSel, ligO, protN],
    claim1_amended hbS hbSel (by
      norm_num [proteinAtomsOf, ligandAtomsOf, ligandCenterOf, isLigandAtom, getCenter,
        distanceSq, AtomData.pos, add, sq, coarseRadius, hbS, hbSel, ligO, protN])⟩

/-- Witness for C3 on `aspS`: the pair (ligand N, OD1) has both a salt-bridge
and a hydrogen-bond raw candidate, and deduplication keeps exactly one
survivor of maximal priority. -/
theorem claim3_witness :
    filtKey (0, 1) (rawInteractionsOf aspS aspSel) ≠ [] ∧
      (∃ i, filtKey (0, 1) (analyzeInteractions aspS aspSel).interactions = [i] ∧
        i ∈ filtKey (0, 1) (rawInteractionsOf aspS aspSel) ∧
        ∀ j ∈ filtKey (0, 1) (rawInteractionsOf aspS aspSel),
          typeScore j.type ≤ typeScore i.type) :=
  ⟨by decide, claim3_priority_max aspS aspSel (0, 1) (by decide)⟩

/-- Witness for C9 on `hbS`: the surviving hydrogen-bond record is the first
(and only) raw candidate of its atom pair. -/
theorem claim9_witness :
    hbInter ∈ (analyzeInteractions hbS hbSel).interactions ∧
      (∃ pre post, filtKey (pairKey hbInter) (rawInteractionsOf hbS hbSel) =
          pre ++ hbInter :: post ∧
        (∀ j ∈ pre, typeScore j.type < typeScore hbInter.type) ∧
        (∀ j ∈ post, typeScore j.type ≤ typeScore hbInter.type)) :=
  ⟨by decide, claim9_first_of_equal hbS hbSel hbInter (by decide)⟩

/-- Witness for the amended C5 on `hbS`: the hydrogen-bond record stores the
squared distance of its own two atoms. -/
theorem claim5_witness :
    (hbInter ∈ (analyzeInteractions hbS hbSel).interactions ∧
        (hbInter.type = .hydrogenBond ∨ hbInter.type = .halogenBond ∨
          hbInter.type = .hydrophobic ∨ hbInter.type = .metalCoordination)) ∧
      hbInter.distanceSq = distanceSq hbInter.ligandAtom.pos hbInter.proteinAtom.pos :=
  ⟨⟨by decide, Or.inl rfl⟩,
    claim5_atom_pair_distance hbS hbSel hbInter (by decide) (Or.inl rfl)⟩

/-- C5 counterexample: on `aspS` the surviving interaction is a salt bridge
whose stored squared distance is 9 (3 Å to the carboxylate midpoint), while
the squared distance between its stored ligand and protein atoms is 4 (2 Å);
the corresponding real distances 3 and 2 differ by far more than the claimed
1e-9 tolerance. -/
theorem claim5_counterexample :
    ((analyzeInteractions aspS aspSel).interactions.map fun i =>
        (i.type, i.distanceSq, distanceSq i.ligandAtom.pos i.proteinAtom.pos)) =
      [(.saltBridge, 9, 4)] ∧
      1e-9 < |Real.sqrt 9 - Real.sqrt 4| := by
  constructor
  · decide
  · have h9 : Real.sqrt 9 = 3 := by
      rw [show (9 : ℝ) = 3 ^ 2 by norm_num, Real.sqrt_sq (by norm_num)]
    have h4 : Real.sqrt 4 = 2 := by
      rw [show (4 : ℝ) = 2 ^ 2 by norm_num, Real.sqrt_sq (by norm_num)]
    rw [h9, h4]
    norm_num

set_option maxRecDepth 100000 in
/-- C4 evaluation at the failing input `pentS`: ring perception returns the
single path `[0,1,2,3,4]`, its plane normal is the zero vector (atoms 0, 2, 4
are collinear), and the engine nevertheless accepts a PiStacking interaction
for the ring pair — the zero normal yields angle 0, which passes the
near-parallel test instead of failing the geometric test as specified. -/
theorem claim4_zero_normal_accepts :
    ((findLigandRings (ligandAtomsOf pentS pentSel)).map fun r =>
        r.map AtomData.index) = [[0, 1, 2, 3, 4]] ∧
      getPlaneNormalDir
        (((findLigandRings (ligandAtomsOf pentS pentSel)).headD []).map AtomData.pos) =
        ⟨0, 0, 0⟩ ∧
      ((analyzeInteractions pentS pentSel).interactions.map fun i => i.type) =
        [.piStacking] := by
  refine ⟨by decide, by decide, by decide⟩

end LigDock
